import Mathlib

/-!
Verification of the dark-class stripping scripts.

The repository contains three Python scripts whose core is a pure text
transformation `remove_dark_classes : str -> str`.  We embed the
transformation shallowly: file content is a `List Char`, each regex
substitution and the line filter become recursive Lean functions that
mirror the left-to-right, leftmost-match, greedy semantics of `re.sub`
and the line loop of the source.

Modelling choices:
- Python `\s` (and `str.strip()`s whitespace set) is modelled by the six
  ASCII whitespace characters; all claims under study are insensitive to
  the non-ASCII extension of Python's whitespace class.
- `re.sub(r'\s+dark:[^\s\'"]*', '', s)` scans left to right; a match can
  only start at a whitespace character, the greedy `\s+` must end
  exactly where `dark:` begins (backtracking into whitespace cannot make
  `d` match), and the trailing class is greedy.  `subDark` implements
  exactly this scan, using fuel equal to the input length so that it is
  structurally recursive and computable by the kernel.
- `re.sub(r'  +', ' ', s)` replaces every maximal run of two or more
  spaces by one space; character-wise this deletes every space that is
  immediately followed by another space, which is what `collapseSpaces`
  does.
- `re.sub(' X', 'X', s)` for a fixed character X deletes a space that is
  immediately followed by X, scanning left to right and continuing after
  each replacement; `delSpaceBefore` implements this two-character
  window scan.
-/

/-- The six ASCII whitespace characters, the ASCII part of Python `\s`. -/
def isWsC (c : Char) : Bool :=
  c == ' ' || c == '\t' || c == '\n' || c == '\r' || c == '\x0b' || c == '\x0c'

/-- Characters matched by `[^\s\'"]` in the inline pattern. -/
def isTokC (c : Char) : Bool :=
  !isWsC c && !(c == '\'') && !(c == '"')

/-- The fixed token prefix `dark:` as a list of characters. -/
def darkW : List Char := ['d', 'a', 'r', 'k', ':']

/-- Boolean prefix test, mirroring Python `str.startswith`. -/
def leadsWith : List Char → List Char → Bool
  | [], _ => true
  | _ :: _, [] => false
  | a :: as, b :: bs => a == b && leadsWith as bs

/-- Boolean substring test: does `w` occur as a contiguous substring of `l`. -/
def hasSub (w : List Char) : List Char → Bool
  | [] => w.isEmpty
  | c :: rest => leadsWith w (c :: rest) || hasSub w rest

/-- Does the text contain a whitespace character immediately followed by
the prefix `dark:`. -/
def hasWsDark : List Char → Bool
  | [] => false
  | c :: rest => (isWsC c && leadsWith darkW rest) || hasWsDark rest

/-- Attempt of the inline pattern `\s+dark:[^\s\'"]*` anchored at the start
of `l`: the greedy whitespace run must be followed by `dark:`; on success
the result is the remainder of the text after the greedy match. -/
def afterDarkMatch (l : List Char) : Option (List Char) :=
  match l.dropWhile isWsC with
  | 'd' :: 'a' :: 'r' :: 'k' :: ':' :: rest => some (rest.dropWhile isTokC)
  | _ => none

/-- Fuelled left-to-right scan of `re.sub(r'\s+dark:[^\s\'"]*', '', s)`. -/
def subDarkF : Nat → List Char → List Char
  | _, [] => []
  | 0, l => l
  | n + 1, c :: cs =>
    if isWsC c then
      match afterDarkMatch (c :: cs) with
      | some rest => subDarkF n rest
      | none => c :: subDarkF n cs
    else c :: subDarkF n cs

/-- The inline pass `re.sub(r'\s+dark:[^\s\'"]*', '', s)`. -/
def subDark (l : List Char) : List Char := subDarkF l.length l

/-- The cleanup pass `re.sub(r'  +', ' ', s)`: every maximal run of two or
more spaces becomes a single space, i.e. a space followed by a space is
deleted. -/
def collapseSpaces : List Char → List Char
  | [] => []
  | [c] => [c]
  | c :: c2 :: rest =>
    if c == ' ' && c2 == ' ' then collapseSpaces (c2 :: rest)
    else c :: collapseSpaces (c2 :: rest)

/-- The cleanup pass `re.sub(' X', 'X', s)` for a fixed character `x`:
delete a single space immediately preceding `x`. -/
def delSpaceBefore (x : Char) : List Char → List Char
  | [] => []
  | [c] => [c]
  | c :: c2 :: rest =>
    if c == ' ' && c2 == x then c2 :: delSpaceBefore x rest
    else c :: delSpaceBefore x (c2 :: rest)

/-- Python `content.split('\n')`. -/
def splitNl : List Char → List (List Char)
  | [] => [[]]
  | c :: rest =>
    if c == '\n' then [] :: splitNl rest
    else
      match splitNl rest with
      | [] => [[c]]
      | l :: ls => (c :: l) :: ls

/-- Python `'\n'.join(lines)`. -/
def joinNl : List (List Char) → List Char
  | [] => []
  | [l] => l
  | l :: ls => l ++ '\n' :: joinNl ls

/-- Python `line.strip()`: remove leading and trailing whitespace. -/
def pyStrip (l : List Char) : List Char :=
  (((l.dropWhile isWsC).reverse.dropWhile isWsC)).reverse

/-- Test of the line filter in the source:
`stripped.startswith("'dark:") or stripped.startswith('"dark:')`. -/
def lineElides (l : List Char) : Bool :=
  leadsWith ('\'' :: darkW) (pyStrip l) || leadsWith ('"' :: darkW) (pyStrip l)

/-- The whole-line elision pass: drop every line whose stripped content
starts with a quoted `dark:` token, rejoin with newlines. -/
def elideNl (s : List Char) : List Char :=
  joinNl ((splitNl s).filter (fun l => !lineElides l))

namespace AdminPages

/-- The transformation of `remove-dark-admin-pages.py`: whole-line elision
followed by the inline substitution, with no cleanup passes. -/
def remove_dark_classes (s : List Char) : List Char :=
  subDark (elideNl s)

end AdminPages

namespace Classes

/-- The transformation of `remove-dark-classes.py`: whole-line elision,
the inline substitution, then the five cleanup substitutions in source
order (collapse multiple spaces; delete a space before a single quote,
a double quote, a closing bracket, a comma). -/
def remove_dark_classes (s : List Char) : List Char :=
  delSpaceBefore ','
    (delSpaceBefore ']'
      (delSpaceBefore '"'
        (delSpaceBefore '\''
          (collapseSpaces (subDark (elideNl s))))))

end Classes

namespace Components

/-- The transformation of `remove-dark-from-components.py`: the inline
substitution (no line elision) then four cleanup substitutions (no
closing-bracket pass). -/
def remove_dark_classes (s : List Char) : List Char :=
  delSpaceBefore ','
    (delSpaceBefore '"'
      (delSpaceBefore '\''
        (collapseSpaces (subDark s))))

end Components

/-- The five normalization substitutions of the spec, in order: collapse
runs of two or more spaces, then delete a single space before a single
quote, a double quote, a closing square bracket, and a comma. -/
def normalizationChain (s : List Char) : List Char :=
  delSpaceBefore ','
    (delSpaceBefore ']'
      (delSpaceBefore '"'
        (delSpaceBefore '\'' (collapseSpaces s))))

/-- Claim-side reading of the elision condition: the trimmed line starts
with a single or double quote immediately followed by `dark:`. -/
def trimmedQuoteDark (l : List Char) : Bool :=
  match pyStrip l with
  | c :: rest => (c == '\'' || c == '"') && leadsWith darkW rest
  | [] => false

theorem leadsWith_iff (w l : List Char) : leadsWith w l = true ↔ w <+: l := by
  induction w generalizing l with
  | nil => simp [leadsWith]
  | cons a as ih =>
    cases l with
    | nil => simp [leadsWith]
    | cons b bs => simp [leadsWith, List.cons_prefix_cons, ih]

theorem leadsWith_append (w l t : List Char) (h : leadsWith w l = true) :
    leadsWith w (l ++ t) = true := by
  rw [leadsWith_iff] at h ⊢
  exact h.trans (List.prefix_append l t)

theorem hasSub_of_leads (w l : List Char) (h : leadsWith w l = true) :
    hasSub w l = true := by
  cases l with
  | nil => cases w <;> simp_all [leadsWith, hasSub]
  | cons c rest => simp [hasSub, h]

theorem hasSub_cons (w : List Char) (c : Char) (l : List Char)
    (h : hasSub w l = true) : hasSub w (c :: l) = true := by
  simp [hasSub, h]

theorem hasSub_append_left (w t l : List Char) (h : hasSub w l = true) :
    hasSub w (t ++ l) = true := by
  induction t with
  | nil => simpa using h
  | cons c ts ih =>
    simp only [List.cons_append]
    exact hasSub_cons _ _ _ ih

theorem hasSub_append_right (w l t : List Char) (h : hasSub w l = true) :
    hasSub w (l ++ t) = true := by
  induction l with
  | nil =>
    have hw : w = [] := by cases w <;> simp_all [hasSub]
    subst hw
    cases t <;> simp [hasSub, leadsWith]
  | cons c ls ih =>
    simp only [hasSub, Bool.or_eq_true] at h
    rcases h with h1 | h2
    · exact hasSub_of_leads _ _ (by simpa using leadsWith_append _ _ t h1)
    · simp only [List.cons_append]
      exact hasSub_cons _ _ _ (ih h2)

theorem hasSub_cons_false (w : List Char) (c : Char) (l : List Char)
    (h : hasSub w (c :: l) = false) :
    leadsWith w (c :: l) = false ∧ hasSub w l = false := by
  simpa [hasSub] using h

theorem dropWhile_head_false (p : Char → Bool) (l : List Char) :
    ∀ c cs, l.dropWhile p = c :: cs → p c = false := by
  induction l with
  | nil => intro c cs h; simp [List.dropWhile] at h
  | cons a as ih =>
    intro c cs h
    by_cases hp : p a = true
    · rw [List.dropWhile_cons_of_pos hp] at h
      exact ih _ _ h
    · rw [List.dropWhile_cons_of_neg hp] at h
      cases h
      simpa using hp

theorem subDarkF_nil (n : Nat) : subDarkF n [] = [] := by
  cases n <;> rfl

theorem subDarkF_succ (n : Nat) (c : Char) (cs : List Char) :
    subDarkF (n + 1) (c :: cs) =
      if isWsC c then
        match afterDarkMatch (c :: cs) with
        | some rest => subDarkF n rest
        | none => c :: subDarkF n cs
      else c :: subDarkF n cs := rfl

theorem afterDark_some_elim (c : Char) (cs r : List Char) (hc : isWsC c = true)
    (h : afterDarkMatch (c :: cs) = some r) :
    ∃ rest, cs.dropWhile isWsC = darkW ++ rest ∧ r = rest.dropWhile isTokC := by
  unfold afterDarkMatch at h
  rw [List.dropWhile_cons_of_pos hc] at h
  split at h
  · next rest heq =>
    refine ⟨rest, by simpa [darkW] using heq, ?_⟩
    exact (Option.some.inj h).symm
  · exact absurd h (by simp)

theorem afterDark_some_sublist (c : Char) (cs r : List Char) (hc : isWsC c = true)
    (h : afterDarkMatch (c :: cs) = some r) : r.Sublist cs := by
  obtain ⟨rest, hdw, hr⟩ := afterDark_some_elim c cs r hc h
  have h1 : rest.Sublist (cs.dropWhile isWsC) := by
    rw [hdw]; exact List.sublist_append_right darkW rest
  have h2 : rest.Sublist cs := h1.trans (List.dropWhile_sublist _)
  rw [hr]; exact (List.dropWhile_sublist _).trans h2

theorem subDarkF_fuel (n : Nat) : ∀ (m : Nat) (l : List Char),
    l.length ≤ n → l.length ≤ m → subDarkF n l = subDarkF m l := by
  induction n with
  | zero =>
    intro m l hn hm
    have hl : l = [] := by cases l <;> simp_all
    subst hl
    simp [subDarkF_nil]
  | succ n ih =>
    intro m l hn hm
    cases l with
    | nil => simp [subDarkF_nil]
    | cons c cs =>
      cases m with
      | zero => simp at hm
      | succ m =>
        rw [subDarkF_succ, subDarkF_succ]
        by_cases hw : isWsC c = true
        · simp only [hw, if_true]
          cases had : afterDarkMatch (c :: cs) with
          | some r =>
            have hlen := (afterDark_some_sublist c cs r hw had).length_le
            have hn' : r.length ≤ n := le_trans hlen (by simpa using Nat.le_of_succ_le_succ hn)
            have hm' : r.length ≤ m := le_trans hlen (by simpa using Nat.le_of_succ_le_succ hm)
            exact ih m r hn' hm'
          | none =>
            have hn' : cs.length ≤ n := by simpa using Nat.le_of_succ_le_succ hn
            have hm' : cs.length ≤ m := by simpa using Nat.le_of_succ_le_succ hm
            exact congrArg (c :: ·) (ih m cs hn' hm')
        · simp only [hw, if_false]
          have hn' : cs.length ≤ n := by simpa using Nat.le_of_succ_le_succ hn
          have hm' : cs.length ≤ m := by simpa using Nat.le_of_succ_le_succ hm
          exact congrArg (c :: ·) (ih m cs hn' hm')

theorem subDark_nil : subDark [] = [] := rfl

theorem subDark_ws_some (c : Char) (cs r : List Char) (hc : isWsC c = true)
    (h : afterDarkMatch (c :: cs) = some r) : subDark (c :: cs) = subDark r := by
  show subDarkF (c :: cs).length (c :: cs) = subDarkF r.length r
  rw [List.length_cons, subDarkF_succ, if_pos hc, h]
  exact subDarkF_fuel cs.length r.length r
    ((afterDark_some_sublist c cs r hc h).length_le) le_rfl

theorem subDark_ws_none (c : Char) (cs : List Char) (hc : isWsC c = true)
    (h : afterDarkMatch (c :: cs) = none) : subDark (c :: cs) = c :: subDark cs := by
  show subDarkF (c :: cs).length (c :: cs) = c :: subDarkF cs.length cs
  rw [List.length_cons, subDarkF_succ, if_pos hc, h]

theorem subDark_not_ws (c : Char) (cs : List Char) (hc : isWsC c = false) :
    subDark (c :: cs) = c :: subDark cs := by
  show subDarkF (c :: cs).length (c :: cs) = c :: subDarkF cs.length cs
  rw [List.length_cons, subDarkF_succ, if_neg (by simp [hc])]

theorem subDark_sublist (l : List Char) : (subDark l).Sublist l := by
  match l with
  | [] => simp [subDark_nil]
  | c :: cs =>
    by_cases hw : isWsC c = true
    · cases had : afterDarkMatch (c :: cs) with
      | some r =>
        rw [subDark_ws_some c cs r hw had]
        have hr : r.Sublist cs := afterDark_some_sublist c cs r hw had
        have hrec : (subDark r).Sublist r := subDark_sublist r
        exact (hrec.trans hr).trans (List.sublist_cons_self c cs)
      | none =>
        rw [subDark_ws_none c cs hw had]
        exact List.cons_sublist_cons.mpr (subDark_sublist cs)
    · rw [subDark_not_ws c cs (by simpa using hw)]
      exact List.cons_sublist_cons.mpr (subDark_sublist cs)
termination_by l.length
decreasing_by
  all_goals first
  | exact Nat.lt_succ_of_le (List.Sublist.length_le hr)
  | omega
  | simp

theorem collapse_sublist (l : List Char) : (collapseSpaces l).Sublist l := by
  match l with
  | [] => simp [collapseSpaces]
  | [c] => simp [collapseSpaces]
  | c :: c2 :: rest =>
    simp only [collapseSpaces]
    by_cases h : (c == ' ' && c2 == ' ') = true
    · rw [if_pos h]
      exact (collapse_sublist (c2 :: rest)).trans (List.sublist_cons_self c _)
    · rw [if_neg h]
      exact List.cons_sublist_cons.mpr (collapse_sublist (c2 :: rest))
termination_by l.length
decreasing_by
  all_goals simp_arith

theorem delSpace_sublist (x : Char) (l : List Char) :
    (delSpaceBefore x l).Sublist l := by
  match l with
  | [] => simp [delSpaceBefore]
  | [c] => simp [delSpaceBefore]
  | c :: c2 :: rest =>
    simp only [delSpaceBefore]
    by_cases h : (c == ' ' && c2 == x) = true
    · rw [if_pos h]
      exact (List.cons_sublist_cons.mpr (delSpace_sublist x rest)).cons c
    · rw [if_neg h]
      exact List.cons_sublist_cons.mpr (delSpace_sublist x (c2 :: rest))
termination_by l.length
decreasing_by
  all_goals simp_arith

theorem splitNl_ne_nil (s : List Char) : splitNl s ≠ [] := by
  cases s with
  | nil => simp [splitNl]
  | cons c rest =>
    simp only [splitNl]
    by_cases h : (c == '\n') = true
    · simp [h]
    · rw [if_neg h]
      cases splitNl rest <;> simp

theorem joinNl_splitNl (s : List Char) : joinNl (splitNl s) = s := by
  induction s with
  | nil => rfl
  | cons c rest ih =>
    simp only [splitNl]
    by_cases h : (c == '\n') = true
    · rw [if_pos h]
      cases hsp : splitNl rest with
      | nil => exact absurd hsp (splitNl_ne_nil rest)
      | cons l ls =>
        rw [hsp] at ih
        have hc : c = '\n' := by simpa using h
        subst hc
        simp [joinNl, ih]
    · rw [if_neg h]
      cases hsp : splitNl rest with
      | nil => exact absurd hsp (splitNl_ne_nil rest)
      | cons l ls =>
        rw [hsp] at ih
        cases ls with
        | nil => simp only [joinNl] at ih ⊢; rw [ih]
        | cons l2 ls2 =>
          simp only [joinNl] at ih ⊢
          rw [List.cons_append, ih]

theorem splitNl_head_pre (s : List Char) :
    ∀ l ls, splitNl s = l :: ls → l <+: s := by
  induction s with
  | nil =>
    intro l ls h
    simp only [splitNl] at h
    cases h
    exact List.nil_prefix
  | cons c rest ih =>
    intro l ls h
    simp only [splitNl] at h
    by_cases hc : (c == '\n') = true
    · rw [if_pos hc] at h
      cases h
      exact List.nil_prefix
    · rw [if_neg hc] at h
      cases hsp : splitNl rest with
      | nil => exact absurd hsp (splitNl_ne_nil rest)
      | cons l0 ls0 =>
        rw [hsp] at h
        injection h with h1 h2
        subst h1
        exact List.cons_prefix_cons.mpr ⟨rfl, ih l0 ls0 hsp⟩

theorem splitNl_mem_hasSub (w s : List Char) :
    ∀ l ∈ splitNl s, hasSub w l = true → hasSub w s = true := by
  induction s with
  | nil =>
    intro l hl h
    simp only [splitNl, List.mem_singleton] at hl
    subst hl
    exact h
  | cons c rest ih =>
    intro l hl h
    simp only [splitNl] at hl
    by_cases hc : (c == '\n') = true
    · rw [if_pos hc] at hl
      rcases List.mem_cons.mp hl with h1 | h2
      · subst h1
        have hw : w = [] := by cases w <;> simp_all [hasSub]
        subst hw
        simp [hasSub, leadsWith]
      · exact hasSub_cons _ _ _ (ih l h2 h)
    · rw [if_neg hc] at hl
      cases hsp : splitNl rest with
      | nil => exact absurd hsp (splitNl_ne_nil rest)
      | cons l0 ls0 =>
        rw [hsp] at hl
        rcases List.mem_cons.mp hl with h1 | h2
        · subst h1
          obtain ⟨t, ht⟩ := splitNl_head_pre rest l0 ls0 hsp
          rw [← ht]
          have hr : hasSub w ((c :: l0) ++ t) = true := hasSub_append_right _ _ _ h
          simpa using hr
        · have hmem : l ∈ splitNl rest := by rw [hsp]; exact List.mem_cons_of_mem _ h2
          exact hasSub_cons _ _ _ (ih l hmem h)

theorem pyStrip_hasSub (w l : List Char) (h : hasSub w (pyStrip l) = true) :
    hasSub w l = true := by
  unfold pyStrip at h
  obtain ⟨t, ht⟩ := List.dropWhile_suffix (l := (l.dropWhile isWsC).reverse) isWsC
  have hm : l.dropWhile isWsC =
      ((l.dropWhile isWsC).reverse.dropWhile isWsC).reverse ++ t.reverse := by
    have h2 := congrArg List.reverse ht
    simpa [List.reverse_append] using h2.symm
  have h3 : hasSub w (l.dropWhile isWsC) = true := by
    rw [hm]
    exact hasSub_append_right _ _ _ h
  obtain ⟨t2, ht2⟩ := List.dropWhile_suffix (l := l) isWsC
  rw [← ht2]
  exact hasSub_append_left _ _ _ h3

theorem pyStrip_mem (c : Char) (l : List Char) (h : c ∈ pyStrip l) : c ∈ l := by
  unfold pyStrip at h
  rw [List.mem_reverse] at h
  have h2 := (List.dropWhile_sublist _).subset h
  rw [List.mem_reverse] at h2
  exact (List.dropWhile_sublist _).subset h2

theorem leadsWith_refl (w : List Char) : leadsWith w w = true :=
  (leadsWith_iff w w).mpr (List.prefix_refl w)

theorem lineElides_hasSub (l : List Char) (h : lineElides l = true) :
    hasSub darkW l = true := by
  unfold lineElides at h
  have key : ∀ q : Char, leadsWith (q :: darkW) (pyStrip l) = true →
      hasSub darkW l = true := by
    intro q hq
    obtain ⟨t, ht⟩ := (leadsWith_iff _ _).mp hq
    apply pyStrip_hasSub
    rw [← ht]
    simp only [List.cons_append]
    apply hasSub_cons
    exact hasSub_of_leads _ _ (leadsWith_append _ _ _ (leadsWith_refl darkW))
  rw [Bool.or_eq_true] at h
  rcases h with h1 | h1
  · exact key _ h1
  · exact key _ h1

theorem lineElides_quote_mem (l : List Char) (h : lineElides l = true) :
    '\'' ∈ l ∨ '"' ∈ l := by
  unfold lineElides at h
  rw [Bool.or_eq_true] at h
  rcases h with h1 | h1
  · left
    obtain ⟨t, ht⟩ := (leadsWith_iff _ _).mp h1
    have hm : '\'' ∈ pyStrip l := by rw [← ht]; simp
    exact pyStrip_mem _ _ hm
  · right
    obtain ⟨t, ht⟩ := (leadsWith_iff _ _).mp h1
    have hm : '"' ∈ pyStrip l := by rw [← ht]; simp
    exact pyStrip_mem _ _ hm

theorem joinNl_filter_sublist (p : List Char → Bool) (ls : List (List Char)) :
    (joinNl (ls.filter p)).Sublist (joinNl ls) := by
  induction ls with
  | nil => simp [joinNl]
  | cons a rest ih =>
    by_cases hp : p a = true
    · rw [List.filter_cons_of_pos hp]
      cases hf : rest.filter p with
      | nil =>
        cases rest with
        | nil => simp [joinNl]
        | cons b rbs =>
          simp only [joinNl]
          exact List.sublist_append_left a ('\n' :: joinNl (b :: rbs))
      | cons f0 frest =>
        cases rest with
        | nil => simp at hf
        | cons b rbs =>
          simp only [joinNl]
          refine List.Sublist.append (List.Sublist.refl a) ?_
          refine List.cons_sublist_cons.mpr ?_
          rw [← hf]
          exact ih
    · rw [List.filter_cons_of_neg hp]
      cases rest with
      | nil => simp [joinNl, List.nil_sublist]
      | cons b rbs =>
        simp only [joinNl]
        refine ih.trans ?_
        have h2 : (joinNl (b :: rbs)).Sublist ((a ++ ['\n']) ++ joinNl (b :: rbs)) :=
          List.sublist_append_right _ _
        rwa [List.append_assoc, List.singleton_append] at h2

theorem elideNl_sublist (s : List Char) : (elideNl s).Sublist s := by
  unfold elideNl
  have h := joinNl_filter_sublist (fun l => !lineElides l) (splitNl s)
  rwa [joinNl_splitNl] at h

theorem removeAdmin_sublist (s : List Char) :
    (AdminPages.remove_dark_classes s).Sublist s :=
  (subDark_sublist _).trans (elideNl_sublist s)

theorem removeClasses_sublist (s : List Char) :
    (Classes.remove_dark_classes s).Sublist s := by
  unfold Classes.remove_dark_classes
  exact (delSpace_sublist _ _).trans ((delSpace_sublist _ _).trans
    ((delSpace_sublist _ _).trans ((delSpace_sublist _ _).trans
      ((collapse_sublist _).trans ((subDark_sublist _).trans (elideNl_sublist s))))))

theorem removeComponents_sublist (s : List Char) :
    (Components.remove_dark_classes s).Sublist s := by
  unfold Components.remove_dark_classes
  exact (delSpace_sublist _ _).trans ((delSpace_sublist _ _).trans
    ((delSpace_sublist _ _).trans ((collapse_sublist _).trans (subDark_sublist _))))

theorem leadsWith_nil_false (w : List Char) (hw : w ≠ []) : leadsWith w [] = false := by
  cases w with
  | nil => exact absurd rfl hw
  | cons a as => rfl

theorem tok_not_ws (c : Char) (h : isTokC c = true) : isWsC c = false := by
  by_cases hw : isWsC c = true
  · unfold isTokC at h
    rw [hw] at h
    simp at h
  · simpa using hw

theorem hasWsDark_cons_false (c : Char) (t : List Char)
    (h : hasWsDark (c :: t) = false) :
    (isWsC c && leadsWith darkW t) = false ∧ hasWsDark t = false := by
  simpa [hasWsDark, Bool.or_eq_false_iff] using h

theorem afterDark_none_not_lead (c : Char) (cs : List Char) (hc : isWsC c = true)
    (h : afterDarkMatch (c :: cs) = none) : leadsWith darkW cs = false := by
  by_contra hne
  have hl : leadsWith darkW cs = true := by simpa using hne
  obtain ⟨t, ht⟩ := (leadsWith_iff _ _).mp hl
  unfold afterDarkMatch at h
  rw [List.dropWhile_cons_of_pos hc, ← ht] at h
  have hd : isWsC 'd' = false := by decide
  rw [show darkW ++ t = 'd' :: ('a' :: 'r' :: 'k' :: ':' :: t) from rfl] at h
  rw [List.dropWhile_cons_of_neg (by simp [hd])] at h
  simp at h

theorem hasWsDark_of_dropWhile_lead (cs : List Char) : ∀ c, isWsC c = true →
    leadsWith darkW (cs.dropWhile isWsC) = true → hasWsDark (c :: cs) = true := by
  induction cs with
  | nil =>
    intro c hc hl
    rw [List.dropWhile_nil] at hl
    rw [leadsWith_nil_false darkW (by simp [darkW])] at hl
    cases hl
  | cons c2 cs2 ih =>
    intro c hc hl
    by_cases h2 : isWsC c2 = true
    · rw [List.dropWhile_cons_of_pos h2] at hl
      have h3 := ih c2 h2 hl
      simp only [hasWsDark, Bool.or_eq_true] at h3 ⊢
      exact Or.inr h3
    · rw [List.dropWhile_cons_of_neg h2] at hl
      simp [hasWsDark, hc, hl]

theorem afterDark_some_hasWsDark (c : Char) (cs : List Char) (r : List Char)
    (hc : isWsC c = true) (h : afterDarkMatch (c :: cs) = some r) :
    hasWsDark (c :: cs) = true := by
  obtain ⟨rest, hdw, _⟩ := afterDark_some_elim c cs r hc h
  apply hasWsDark_of_dropWhile_lead cs c hc
  rw [hdw]
  exact leadsWith_append _ _ _ (leadsWith_refl darkW)

theorem subDark_keepNL (w l : List Char) (hw : w ≠ [])
    (hwt : ∀ c ∈ w, isTokC c = true) (h : leadsWith w l = false) :
    leadsWith w (subDark l) = false := by
  match l with
  | [] => rwa [subDark_nil]
  | c :: cs =>
    by_cases hws : isWsC c = true
    · cases had : afterDarkMatch (c :: cs) with
      | some r =>
        rw [subDark_ws_some c cs r hws had]
        have hlt : r.length < (c :: cs).length :=
          Nat.lt_succ_of_le (afterDark_some_sublist c cs r hws had).length_le
        apply subDark_keepNL w r hw hwt
        obtain ⟨rest, _, hr⟩ := afterDark_some_elim c cs r hws had
        cases hrr : r with
        | nil => exact leadsWith_nil_false w hw
        | cons x xs =>
          have hx : isTokC x = false := by
            apply dropWhile_head_false isTokC rest
            rw [← hr, hrr]
          cases w with
          | nil => exact absurd rfl hw
          | cons a as =>
            have ha : isTokC a = true := hwt a (by simp)
            have hne : (a == x) = false := by
              by_contra hbe
              have : a = x := by
                have hb : (a == x) = true := by simpa using hbe
                simpa using hb
              rw [this] at ha
              rw [ha] at hx
              cases hx
            simp [leadsWith, hne]
      | none =>
        rw [subDark_ws_none c cs hws had]
        cases w with
        | nil => exact absurd rfl hw
        | cons a as =>
          have ha : isWsC a = false := tok_not_ws a (hwt a (by simp))
          have hne : (a == c) = false := by
            by_contra hbe
            have hac : a = c := by
              have hb : (a == c) = true := by simpa using hbe
              simpa using hb
            rw [hac] at ha
            rw [hws] at ha
            cases ha
          simp [leadsWith, hne]
    · have hws' : isWsC c = false := by simpa using hws
      rw [subDark_not_ws c cs hws']
      cases w with
      | nil => exact absurd rfl hw
      | cons a as =>
        by_cases hac : (a == c) = true
        · have h2 : leadsWith as cs = false := by
            simp only [leadsWith, hac, Bool.true_and] at h
            exact h
          cases as with
          | nil => simp [leadsWith] at h2
          | cons b bs =>
            have := subDark_keepNL (b :: bs) cs (by simp)
              (fun d hd => hwt d (by simp [hd])) h2
            simp [leadsWith, hac, this]
        · have hac' : (a == c) = false := by simpa using hac
          simp [leadsWith, hac']
termination_by l.length
decreasing_by
  all_goals first
  | exact hlt
  | simp

theorem subDark_noWsDark (l : List Char) : hasWsDark (subDark l) = false := by
  match l with
  | [] => rw [subDark_nil]; rfl
  | c :: cs =>
    by_cases hws : isWsC c = true
    · cases had : afterDarkMatch (c :: cs) with
      | some r =>
        rw [subDark_ws_some c cs r hws had]
        have hlt : r.length < (c :: cs).length :=
          Nat.lt_succ_of_le (afterDark_some_sublist c cs r hws had).length_le
        exact subDark_noWsDark r
      | none =>
        rw [subDark_ws_none c cs hws had]
        have h1 : leadsWith darkW cs = false := afterDark_none_not_lead c cs hws had
        have h2 : leadsWith darkW (subDark cs) = false :=
          subDark_keepNL darkW cs (by simp [darkW]) (by decide) h1
        simp [hasWsDark, h2, subDark_noWsDark cs]
    · have hws' : isWsC c = false := by simpa using hws
      rw [subDark_not_ws c cs hws']
      simp [hasWsDark, hws', subDark_noWsDark cs]
termination_by l.length
decreasing_by
  all_goals first
  | exact hlt
  | simp

theorem collapse_keepNL (w l : List Char) (hw : w ≠ []) (hsp : ' ' ∉ w)
    (h : leadsWith w l = false) : leadsWith w (collapseSpaces l) = false := by
  match l with
  | [] => rwa [show collapseSpaces [] = [] from rfl]
  | [c] => rwa [show collapseSpaces [c] = [c] from rfl]
  | c :: c2 :: rest =>
    simp only [collapseSpaces]
    by_cases hcc : (c == ' ' && c2 == ' ') = true
    · rw [if_pos hcc]
      have hc2 : c2 = ' ' := by
        have h2 := (Bool.and_eq_true _ _).mp hcc
        simpa using h2.2
      apply collapse_keepNL w (c2 :: rest) hw hsp
      cases w with
      | nil => exact absurd rfl hw
      | cons a as =>
        have ha : (a == c2) = false := by
          rw [hc2, beq_eq_false_iff_ne]
          intro hae
          exact hsp (by rw [← hae]; simp)
        simp [leadsWith, ha]
    · rw [if_neg hcc]
      cases w with
      | nil => exact absurd rfl hw
      | cons a as =>
        by_cases hac : (a == c) = true
        · have h2 : leadsWith as (c2 :: rest) = false := by
            simp only [leadsWith, hac, Bool.true_and] at h
            exact h
          cases as with
          | nil => simp [leadsWith] at h2
          | cons b bs =>
            have hrec := collapse_keepNL (b :: bs) (c2 :: rest) (by simp)
              (fun hmem => hsp (List.mem_cons_of_mem a hmem)) h2
            simp [leadsWith, hrec]
        · have hac' : (a == c) = false := by simpa using hac
          simp [leadsWith, hac']
termination_by l.length
decreasing_by
  all_goals simp_arith

theorem delSpace_keepNL (w : List Char) (x : Char) (l : List Char) (hw : w ≠ [])
    (hsp : ' ' ∉ w) (hx : x ∉ w) (h : leadsWith w l = false) :
    leadsWith w (delSpaceBefore x l) = false := by
  match l with
  | [] => rwa [show delSpaceBefore x [] = [] from rfl]
  | [c] => rwa [show delSpaceBefore x [c] = [c] from rfl]
  | c :: c2 :: rest =>
    simp only [delSpaceBefore]
    by_cases hcc : (c == ' ' && c2 == x) = true
    · rw [if_pos hcc]
      have hc2 : c2 = x := by
        have h2 := (Bool.and_eq_true _ _).mp hcc
        simpa using h2.2
      cases w with
      | nil => exact absurd rfl hw
      | cons a as =>
        have ha : (a == c2) = false := by
          rw [hc2, beq_eq_false_iff_ne]
          intro hae
          exact hx (by rw [← hae]; simp)
        simp [leadsWith, ha]
    · rw [if_neg hcc]
      cases w with
      | nil => exact absurd rfl hw
      | cons a as =>
        by_cases hac : (a == c) = true
        · have h2 : leadsWith as (c2 :: rest) = false := by
            simp only [leadsWith, hac, Bool.true_and] at h
            exact h
          cases as with
          | nil => simp [leadsWith] at h2
          | cons b bs =>
            have hrec := delSpace_keepNL (b :: bs) x (c2 :: rest) (by simp)
              (fun hmem => hsp (List.mem_cons_of_mem a hmem))
              (fun hmem => hx (List.mem_cons_of_mem a hmem)) h2
            simp [leadsWith, hrec]
        · have hac' : (a == c) = false := by simpa using hac
          simp [leadsWith, hac']
termination_by l.length
decreasing_by
  all_goals simp_arith

theorem hasWsDark_singleton (c : Char) : hasWsDark [c] = false := by
  have h := leadsWith_nil_false darkW (by simp [darkW])
  simp [hasWsDark, h]

theorem collapse_noWsDark (l : List Char) (h : hasWsDark l = false) :
    hasWsDark (collapseSpaces l) = false := by
  match l with
  | [] => rwa [show collapseSpaces [] = [] from rfl]
  | [c] => rwa [show collapseSpaces [c] = [c] from rfl]
  | c :: c2 :: rest =>
    obtain ⟨h1, h2⟩ := hasWsDark_cons_false c (c2 :: rest) h
    simp only [collapseSpaces]
    by_cases hcc : (c == ' ' && c2 == ' ') = true
    · rw [if_pos hcc]
      exact collapse_noWsDark (c2 :: rest) h2
    · rw [if_neg hcc]
      have hrec := collapse_noWsDark (c2 :: rest) h2
      simp only [hasWsDark, Bool.or_eq_false_iff]
      refine ⟨?_, hrec⟩
      by_cases hws : isWsC c = true
      · have hld : leadsWith darkW (c2 :: rest) = false := by
          by_contra hne
          have hl : leadsWith darkW (c2 :: rest) = true := by simpa using hne
          rw [hws, hl] at h1
          simp at h1
        have hk := collapse_keepNL darkW (c2 :: rest) (by simp [darkW]) (by decide) hld
        simp [hws, hk]
      · have hws' : isWsC c = false := by simpa using hws
        simp [hws']
termination_by l.length
decreasing_by
  all_goals simp_arith

theorem delSpace_noWsDark (x : Char) (l : List Char) (hxw : isWsC x = false)
    (hxd : x ∉ darkW) (h : hasWsDark l = false) :
    hasWsDark (delSpaceBefore x l) = false := by
  match l with
  | [] => rwa [show delSpaceBefore x [] = [] from rfl]
  | [c] => rwa [show delSpaceBefore x [c] = [c] from rfl]
  | c :: c2 :: rest =>
    obtain ⟨h1, h2⟩ := hasWsDark_cons_false c (c2 :: rest) h
    obtain ⟨h3, h4⟩ := hasWsDark_cons_false c2 rest h2
    simp only [delSpaceBefore]
    by_cases hcc : (c == ' ' && c2 == x) = true
    · rw [if_pos hcc]
      have hc2 : c2 = x := by
        have hp := (Bool.and_eq_true _ _).mp hcc
        simpa using hp.2
      have hrec := delSpace_noWsDark x rest hxw hxd h4
      simp only [hasWsDark, Bool.or_eq_false_iff]
      refine ⟨?_, hrec⟩
      rw [hc2, hxw]
      simp
    · rw [if_neg hcc]
      have hrec := delSpace_noWsDark x (c2 :: rest) hxw hxd h2
      simp only [hasWsDark, Bool.or_eq_false_iff]
      refine ⟨?_, hrec⟩
      by_cases hws : isWsC c = true
      · have hld : leadsWith darkW (c2 :: rest) = false := by
          by_contra hne
          have hl : leadsWith darkW (c2 :: rest) = true := by simpa using hne
          rw [hws, hl] at h1
          simp at h1
        have hk := delSpace_keepNL darkW x (c2 :: rest) (by simp [darkW])
          (by decide) hxd hld
        simp [hws, hk]
      · have hws' : isWsC c = false := by simpa using hws
        simp [hws']
termination_by l.length
decreasing_by
  all_goals simp_arith

theorem classes_noWsDark (s : List Char) :
    hasWsDark (Classes.remove_dark_classes s) = false := by
  unfold Classes.remove_dark_classes
  apply delSpace_noWsDark ',' _ (by decide) (by decide)
  apply delSpace_noWsDark ']' _ (by decide) (by decide)
  apply delSpace_noWsDark '"' _ (by decide) (by decide)
  apply delSpace_noWsDark '\'' _ (by decide) (by decide)
  apply collapse_noWsDark
  exact subDark_noWsDark _

theorem hasWsDark_false_split (pre : List Char) :
    ∀ (m : List Char), hasWsDark m = false →
    ∀ (c : Char) (suf : List Char), m = pre ++ c :: (darkW ++ suf) →
    isWsC c = false := by
  induction pre with
  | nil =>
    intro m h c suf hm
    subst hm
    simp only [List.nil_append] at h
    obtain ⟨h1, _⟩ := hasWsDark_cons_false c _ h
    have h2 : leadsWith darkW (darkW ++ suf) = true :=
      leadsWith_append _ _ _ (leadsWith_refl _)
    rw [h2, Bool.and_true] at h1
    exact h1
  | cons p pre' ih =>
    intro m h c suf hm
    subst hm
    simp only [List.cons_append] at h
    obtain ⟨_, h2⟩ := hasWsDark_cons_false p _ h
    exact ih _ h2 c suf rfl

theorem subDark_id (l : List Char) (h : hasWsDark l = false) : subDark l = l := by
  match l with
  | [] => exact subDark_nil
  | c :: cs =>
    obtain ⟨h1, h2⟩ := hasWsDark_cons_false c cs h
    by_cases hws : isWsC c = true
    · cases had : afterDarkMatch (c :: cs) with
      | some r =>
        have htr := afterDark_some_hasWsDark c cs r hws had
        exact absurd h (by simp [htr])
      | none =>
        rw [subDark_ws_none c cs hws had, subDark_id cs h2]
    · have hws' : isWsC c = false := by simpa using hws
      rw [subDark_not_ws c cs hws', subDark_id cs h2]
termination_by l.length
decreasing_by
  all_goals simp_arith

theorem collapse_id (l : List Char) (h : hasSub [' ', ' '] l = false) :
    collapseSpaces l = l := by
  match l with
  | [] => rfl
  | [c] => rfl
  | c :: c2 :: rest =>
    obtain ⟨hl, ht⟩ := hasSub_cons_false _ _ _ h
    simp only [collapseSpaces]
    have hcc : ¬ ((c == ' ' && c2 == ' ') = true) := by
      intro hb
      obtain ⟨e1, e2⟩ := (Bool.and_eq_true _ _).mp hb
      have hc : c = ' ' := by simpa using e1
      have hc2 : c2 = ' ' := by simpa using e2
      rw [hc, hc2] at hl
      simp [leadsWith] at hl
    rw [if_neg hcc, collapse_id (c2 :: rest) ht]
termination_by l.length
decreasing_by
  all_goals simp_arith

theorem delSpace_id (x : Char) (l : List Char) (h : hasSub [' ', x] l = false) :
    delSpaceBefore x l = l := by
  match l with
  | [] => rfl
  | [c] => rfl
  | c :: c2 :: rest =>
    obtain ⟨hl, ht⟩ := hasSub_cons_false _ _ _ h
    simp only [delSpaceBefore]
    have hcc : ¬ ((c == ' ' && c2 == x) = true) := by
      intro hb
      obtain ⟨e1, e2⟩ := (Bool.and_eq_true _ _).mp hb
      have hc : c = ' ' := by simpa using e1
      have hc2 : c2 = x := by simpa using e2
      rw [hc, hc2] at hl
      simp [leadsWith] at hl
    rw [if_neg hcc, delSpace_id x (c2 :: rest) ht]
termination_by l.length
decreasing_by
  all_goals simp_arith

theorem elide_id (s : List Char) (h : ∀ l ∈ splitNl s, lineElides l = false) :
    elideNl s = s := by
  unfold elideNl
  have hf : (splitNl s).filter (fun l => !lineElides l) = splitNl s :=
    List.filter_eq_self.mpr (fun l hl => by simp [h l hl])
  rw [hf, joinNl_splitNl]

theorem splitNl_mem_subset (s : List Char) :
    ∀ l ∈ splitNl s, ∀ x ∈ l, x ∈ s := by
  induction s with
  | nil =>
    intro l hl x hx
    simp only [splitNl, List.mem_singleton] at hl
    subst hl
    simp at hx
  | cons c rest ih =>
    intro l hl x hx
    simp only [splitNl] at hl
    by_cases hc : (c == '\n') = true
    · rw [if_pos hc] at hl
      rcases List.mem_cons.mp hl with h1 | h2
      · subst h1
        simp at hx
      · exact List.mem_cons_of_mem _ (ih l h2 x hx)
    · rw [if_neg hc] at hl
      cases hsp : splitNl rest with
      | nil => exact absurd hsp (splitNl_ne_nil rest)
      | cons l0 ls0 =>
        rw [hsp] at hl
        rcases List.mem_cons.mp hl with h1 | h2
        · subst h1
          rcases List.mem_cons.mp hx with hx1 | hx2
          · rw [hx1]
            simp
          · obtain ⟨t, ht⟩ := splitNl_head_pre rest l0 ls0 hsp
            have hxr : x ∈ rest := by
              rw [← ht]
              exact List.mem_append_left t hx2
            exact List.mem_cons_of_mem _ hxr
        · have hmem : l ∈ splitNl rest := by
            rw [hsp]
            exact List.mem_cons_of_mem _ h2
          exact List.mem_cons_of_mem _ (ih l hmem x hx)

theorem collapse_head_ne_sp (c2 : Char) (rest : List Char) (h : c2 ≠ ' ') :
    ∃ t, collapseSpaces (c2 :: rest) = c2 :: t := by
  cases rest with
  | nil => exact ⟨[], rfl⟩
  | cons c3 r3 =>
    have hc : (c2 == ' ') = false := beq_eq_false_iff_ne.mpr h
    refine ⟨collapseSpaces (c3 :: r3), ?_⟩
    simp only [collapseSpaces]
    rw [if_neg (by simp [hc])]

theorem delSpace_head_ne_sp (x c2 : Char) (rest : List Char) (h : c2 ≠ ' ') :
    ∃ t, delSpaceBefore x (c2 :: rest) = c2 :: t := by
  cases rest with
  | nil => exact ⟨[], rfl⟩
  | cons c3 r3 =>
    have hc : (c2 == ' ') = false := beq_eq_false_iff_ne.mpr h
    refine ⟨delSpaceBefore x (c3 :: r3), ?_⟩
    simp only [delSpaceBefore]
    rw [if_neg (by simp [hc])]

theorem hasSub_two_singleton (a b c : Char) : hasSub [a, b] [c] = false := by
  simp [hasSub, leadsWith]

theorem collapse_noTwoSp (l : List Char) :
    hasSub [' ', ' '] (collapseSpaces l) = false := by
  match l with
  | [] => simp [collapseSpaces, hasSub]
  | [c] =>
    simp only [collapseSpaces]
    exact hasSub_two_singleton _ _ _
  | c :: c2 :: rest =>
    simp only [collapseSpaces]
    by_cases hcc : (c == ' ' && c2 == ' ') = true
    · rw [if_pos hcc]
      exact collapse_noTwoSp (c2 :: rest)
    · rw [if_neg hcc]
      have hrec := collapse_noTwoSp (c2 :: rest)
      simp only [hasSub, Bool.or_eq_false_iff]
      refine ⟨?_, hrec⟩
      by_cases hc : c = ' '
      · have hc2 : c2 ≠ ' ' := by
          intro he
          exact hcc (by simp [hc, he])
        obtain ⟨t, ht⟩ := collapse_head_ne_sp c2 rest hc2
        rw [ht]
        have hne : (' ' == c2) = false := beq_eq_false_iff_ne.mpr (fun he => hc2 he.symm)
        simp [leadsWith, hne]
      · have hne : (' ' == c) = false := beq_eq_false_iff_ne.mpr (fun he => hc he.symm)
        simp [leadsWith, hne]
termination_by l.length
decreasing_by
  all_goals simp_arith

theorem delSpace_noTwoSp (x : Char) (l : List Char) (hx : x ≠ ' ')
    (h : hasSub [' ', ' '] l = false) :
    hasSub [' ', ' '] (delSpaceBefore x l) = false := by
  match l with
  | [] => simpa [delSpaceBefore] using h
  | [c] => simpa [delSpaceBefore] using h
  | c :: c2 :: rest =>
    obtain ⟨hl, ht⟩ := hasSub_cons_false _ _ _ h
    obtain ⟨hl2, ht2⟩ := hasSub_cons_false _ _ _ ht
    simp only [delSpaceBefore]
    by_cases hcc : (c == ' ' && c2 == x) = true
    · rw [if_pos hcc]
      have hrec := delSpace_noTwoSp x rest hx ht2
      simp only [hasSub, Bool.or_eq_false_iff]
      refine ⟨?_, hrec⟩
      have hc2 : c2 = x := by simpa using ((Bool.and_eq_true _ _).mp hcc).2
      have hne : (' ' == c2) = false := by
        rw [hc2]
        exact beq_eq_false_iff_ne.mpr (fun he => hx he.symm)
      simp [leadsWith, hne]
    · rw [if_neg hcc]
      have hrec := delSpace_noTwoSp x (c2 :: rest) hx ht
      simp only [hasSub, Bool.or_eq_false_iff]
      refine ⟨?_, hrec⟩
      by_cases hc : c = ' '
      · have hc2 : c2 ≠ ' ' := by
          intro he
          rw [hc, he] at hl
          simp [leadsWith] at hl
        obtain ⟨t, htt⟩ := delSpace_head_ne_sp x c2 rest hc2
        rw [htt]
        have hne : (' ' == c2) = false := beq_eq_false_iff_ne.mpr (fun he => hc2 he.symm)
        simp [leadsWith, hne]
      · have hne : (' ' == c) = false := beq_eq_false_iff_ne.mpr (fun he => hc he.symm)
        simp [leadsWith, hne]
termination_by l.length
decreasing_by
  all_goals simp_arith

theorem delSpace_noSpX (x : Char) (l : List Char) (hx : x ≠ ' ')
    (h : hasSub [' ', ' '] l = false) :
    hasSub [' ', x] (delSpaceBefore x l) = false := by
  match l with
  | [] => simp [delSpaceBefore, hasSub]
  | [c] =>
    simp only [delSpaceBefore]
    exact hasSub_two_singleton _ _ _
  | c :: c2 :: rest =>
    obtain ⟨hl, ht⟩ := hasSub_cons_false _ _ _ h
    obtain ⟨hl2, ht2⟩ := hasSub_cons_false _ _ _ ht
    simp only [delSpaceBefore]
    by_cases hcc : (c == ' ' && c2 == x) = true
    · rw [if_pos hcc]
      have hrec := delSpace_noSpX x rest hx ht2
      simp only [hasSub, Bool.or_eq_false_iff]
      refine ⟨?_, hrec⟩
      have hc2 : c2 = x := by simpa using ((Bool.and_eq_true _ _).mp hcc).2
      have hne : (' ' == c2) = false := by
        rw [hc2]
        exact beq_eq_false_iff_ne.mpr (fun he => hx he.symm)
      simp [leadsWith, hne]
    · rw [if_neg hcc]
      have hrec := delSpace_noSpX x (c2 :: rest) hx ht
      simp only [hasSub, Bool.or_eq_false_iff]
      refine ⟨?_, hrec⟩
      by_cases hc : c = ' '
      · have hc2 : c2 ≠ ' ' := by
          intro he
          rw [hc, he] at hl
          simp [leadsWith] at hl
        have hc2x : c2 ≠ x := by
          intro he
          exact hcc (by simp [hc, he])
        obtain ⟨t, htt⟩ := delSpace_head_ne_sp x c2 rest hc2
        rw [htt]
        have hsp : (' ' == c) = true := by simp [hc]
        have hne : (x == c2) = false := beq_eq_false_iff_ne.mpr (fun he => hc2x he.symm)
        simp [leadsWith, hne]
      · have hne : (' ' == c) = false := beq_eq_false_iff_ne.mpr (fun he => hc he.symm)
        simp [leadsWith, hne]
termination_by l.length
decreasing_by
  all_goals simp_arith

theorem delSpace_noSpX_pres (x y : Char) (l : List Char) (hx : x ≠ ' ')
    (hy : y ≠ ' ') (hxy : x ≠ y)
    (h2 : hasSub [' ', ' '] l = false) (h : hasSub [' ', x] l = false) :
    hasSub [' ', x] (delSpaceBefore y l) = false := by
  match l with
  | [] => simpa [delSpaceBefore] using h
  | [c] => simpa [delSpaceBefore] using h
  | c :: c2 :: rest =>
    obtain ⟨hlt, htt⟩ := hasSub_cons_false _ _ _ h2
    obtain ⟨hlt2, htt2⟩ := hasSub_cons_false _ _ _ htt
    obtain ⟨hlx, htx⟩ := hasSub_cons_false _ _ _ h
    obtain ⟨hlx2, htx2⟩ := hasSub_cons_false _ _ _ htx
    simp only [delSpaceBefore]
    by_cases hcc : (c == ' ' && c2 == y) = true
    · rw [if_pos hcc]
      have hrec := delSpace_noSpX_pres x y rest hx hy hxy htt2 htx2
      simp only [hasSub, Bool.or_eq_false_iff]
      refine ⟨?_, hrec⟩
      have hc2 : c2 = y := by simpa using ((Bool.and_eq_true _ _).mp hcc).2
      have hne : (' ' == c2) = false := by
        rw [hc2]
        exact beq_eq_false_iff_ne.mpr (fun he => hy he.symm)
      simp [leadsWith, hne]
    · rw [if_neg hcc]
      have hrec := delSpace_noSpX_pres x y (c2 :: rest) hx hy hxy htt htx
      simp only [hasSub, Bool.or_eq_false_iff]
      refine ⟨?_, hrec⟩
      by_cases hc : c = ' '
      · have hc2 : c2 ≠ ' ' := by
          intro he
          rw [hc, he] at hlt
          simp [leadsWith] at hlt
        have hc2x : c2 ≠ x := by
          intro he
          rw [hc, he] at hlx
          simp [leadsWith] at hlx
        obtain ⟨t, hdt⟩ := delSpace_head_ne_sp y c2 rest hc2
        rw [hdt]
        have hne : (x == c2) = false := beq_eq_false_iff_ne.mpr (fun he => hc2x he.symm)
        simp [leadsWith, hne]
      · have hne : (' ' == c) = false := beq_eq_false_iff_ne.mpr (fun he => hc he.symm)
        simp [leadsWith, hne]
termination_by l.length
decreasing_by
  all_goals simp_arith

theorem hasWsDark_hasSub (l : List Char) (h : hasWsDark l = true) :
    hasSub darkW l = true := by
  induction l with
  | nil => simp [hasWsDark] at h
  | cons c rest ih =>
    simp only [hasWsDark, Bool.or_eq_true] at h
    rcases h with h1 | h2
    · have hld := ((Bool.and_eq_true _ _).mp h1).2
      exact hasSub_cons _ _ _ (hasSub_of_leads _ _ hld)
    · exact hasSub_cons _ _ _ (ih h2)

theorem beq_swap (a b : Char) : (a == b) = (b == a) := by
  by_cases h : a = b
  · simp [h]
  · have h1 : (a == b) = false := beq_eq_false_iff_ne.mpr h
    have h2 : (b == a) = false := beq_eq_false_iff_ne.mpr (fun he => h he.symm)
    rw [h1, h2]

theorem bool_orand (a b t : Bool) : ((a && t) || (b && t)) = ((a || b) && t) := by
  cases a <;> cases b <;> cases t <;> rfl

theorem lineElides_eq_trimmed (l : List Char) :
    lineElides l = trimmedQuoteDark l := by
  unfold lineElides trimmedQuoteDark
  cases hp : pyStrip l with
  | nil => simp [leadsWith]
  | cons c rest =>
    simp only [leadsWith]
    rw [beq_swap '\'' c, beq_swap '"' c, bool_orand]

theorem dropWhile_all_append (p : Char → Bool) (w x : List Char)
    (h : ∀ c ∈ w, p c = true) : (w ++ x).dropWhile p = x.dropWhile p := by
  induction w with
  | nil => rfl
  | cons a as ih =>
    rw [List.cons_append, List.dropWhile_cons_of_pos (h a (by simp))]
    exact ih (fun c hc => h c (by simp [hc]))

/-- Claim C7: the transformation of `remove-dark-classes.py` is total and
deterministic over all inputs: the empty string maps to the empty string,
and every input string yields exactly one output string, with no failure
branch in the function. -/
theorem claim_C7_total : Classes.remove_dark_classes [] = [] ∧
    ∀ s : List Char, ∃! t : List Char, Classes.remove_dark_classes s = t := by
  constructor
  · rfl
  · intro s
    exact ⟨Classes.remove_dark_classes s, rfl, fun y hy => hy.symm⟩

/-- Claim C8: for every input, the transformation of
`remove-dark-classes.py` equals the transformation of
`remove-dark-admin-pages.py` (whole-line elision then inline removal)
followed by the five normalization substitutions in order, so the later
script refines the earlier one by adding only cleanup passes. -/
theorem claim_C8_refines : ∀ s : List Char,
    Classes.remove_dark_classes s =
      normalizationChain (AdminPages.remove_dark_classes s) :=
  fun _ => rfl

/-- Claim C9: for every input, the output of `remove_dark_classes` in
`remove-dark-classes.py` contains no whitespace character immediately
followed by the substring `dark:`. -/
theorem claim_C9_noWsDark : ∀ s : List Char,
    hasWsDark (Classes.remove_dark_classes s) = false :=
  fun s => classes_noWsDark s

/-- Claim C10: in all three scripts the output is never longer than the
input, and the number of newline characters in the output never exceeds
that of the input. -/
theorem claim_C10_shrinks : ∀ s : List Char,
    (AdminPages.remove_dark_classes s).length ≤ s.length ∧
    (Classes.remove_dark_classes s).length ≤ s.length ∧
    (Components.remove_dark_classes s).length ≤ s.length ∧
    List.count '\n' (AdminPages.remove_dark_classes s) ≤ List.count '\n' s ∧
    List.count '\n' (Classes.remove_dark_classes s) ≤ List.count '\n' s ∧
    List.count '\n' (Components.remove_dark_classes s) ≤ List.count '\n' s := by
  intro s
  exact ⟨(removeAdmin_sublist s).length_le, (removeClasses_sublist s).length_le,
    (removeComponents_sublist s).length_le, (removeAdmin_sublist s).count_le '\n',
    (removeClasses_sublist s).count_le '\n', (removeComponents_sublist s).count_le '\n'⟩

/-- Claim C1 counterexample: on input `dark:x` the transformation returns
`dark:x` unchanged, so a line-start-delimited run beginning with `dark:`
does remain in the output, contradicting the claim as stated. -/
theorem claim_C1_counterexample :
    Classes.remove_dark_classes ['d', 'a', 'r', 'k', ':', 'x'] =
      ['d', 'a', 'r', 'k', ':', 'x'] ∧
    leadsWith darkW
      (Classes.remove_dark_classes ['d', 'a', 'r', 'k', ':', 'x']) = true := by
  decide

/-- Claim C1 amended: in the output of `remove_dark_classes` of
`remove-dark-classes.py`, every occurrence of `dark:` that has a preceding
character is preceded by a non-whitespace character; only a run not
preceded by any whitespace (for instance at the start of the string or of
a line) can remain. -/
theorem claim_C1_amended (s pre suf : List Char) (c : Char)
    (h : Classes.remove_dark_classes s = pre ++ c :: (darkW ++ suf)) :
    isWsC c = false :=
  hasWsDark_false_split pre (Classes.remove_dark_classes s)
    (classes_noWsDark s) c suf h

/-- Witness for the amended claim C1 at the concrete input `a'dark:x`. -/
theorem claim_C1_amended_witness : isWsC '\'' = false :=
  claim_C1_amended ['a', '\'', 'd', 'a', 'r', 'k', ':', 'x'] ['a'] ['x'] '\''
    (by decide)

/-- Claim C2 counterexample: the input `a  b` contains no `dark:`
substring, yet the transformation changes it to `a b`, because the
space-collapsing cleanup substitution runs unconditionally. -/
theorem claim_C2_counterexample :
    hasSub darkW ['a', ' ', ' ', 'b'] = false ∧
    Classes.remove_dark_classes ['a', ' ', ' ', 'b'] ≠ ['a', ' ', ' ', 'b'] := by
  decide

/-- Claim C2 amended: the transformation of `remove-dark-classes.py` is
the identity on any input that contains no `dark:` substring and also no
occurrence of a normalization pattern: no two consecutive spaces and no
space immediately before a single quote, a double quote, a closing square
bracket, or a comma. -/
theorem claim_C2_amended (s : List Char)
    (hd : hasSub darkW s = false)
    (h1 : hasSub [' ', ' '] s = false)
    (h2 : hasSub [' ', '\''] s = false)
    (h3 : hasSub [' ', '"'] s = false)
    (h4 : hasSub [' ', ']'] s = false)
    (h5 : hasSub [' ', ','] s = false) :
    Classes.remove_dark_classes s = s := by
  have hel : elideNl s = s := by
    apply elide_id
    intro l hl
    by_contra hne
    have hlt : lineElides l = true := by simpa using hne
    have hss := splitNl_mem_hasSub darkW s l hl (lineElides_hasSub l hlt)
    exact absurd hss (by simp [hd])
  have hwd : hasWsDark s = false := by
    by_contra hne
    have hh : hasWsDark s = true := by simpa using hne
    exact absurd (hasWsDark_hasSub s hh) (by simp [hd])
  show delSpaceBefore ','
      (delSpaceBefore ']'
        (delSpaceBefore '"'
          (delSpaceBefore '\''
            (collapseSpaces (subDark (elideNl s)))))) = s
  rw [hel, subDark_id s hwd, collapse_id s h1, delSpace_id '\'' s h2,
    delSpace_id '"' s h3, delSpace_id ']' s h4, delSpace_id ',' s h5]

/-- Witness for the amended claim C2 at the concrete input `abc`. -/
theorem claim_C2_amended_witness :
    Classes.remove_dark_classes ['a', 'b', 'c'] = ['a', 'b', 'c'] :=
  claim_C2_amended ['a', 'b', 'c'] (by decide) (by decide) (by decide)
    (by decide) (by decide) (by decide)

/-- Claim C4 counterexample: on the input `['a', 'dark:b' , 'c']` the code
does not produce the claimed output `['a', , 'c']`: the quoted token
`'dark:b'` is preceded by a quote, not by whitespace, so the inline
pattern never matches it. -/
theorem claim_C4_counterexample :
    Classes.remove_dark_classes
        ['[', '\'', 'a', '\'', ',', ' ', '\'', 'd', 'a', 'r', 'k', ':', 'b',
          '\'', ' ', ',', ' ', '\'', 'c', '\'', ']'] ≠
      ['[', '\'', 'a', '\'', ',', ' ', ',', ' ', '\'', 'c', '\'', ']'] := by
  decide

/-- Claim C4 amended: on input `['a', 'dark:b' , 'c']` the inline pass
leaves the quoted token in place (no whitespace immediately precedes
`dark:`); only the cleanup substitutions fire, deleting the space before
each quote and the space before the comma, so the output is
`['a','dark:b','c']`. -/
theorem claim_C4_amended :
    Classes.remove_dark_classes
        ['[', '\'', 'a', '\'', ',', ' ', '\'', 'd', 'a', 'r', 'k', ':', 'b',
          '\'', ' ', ',', ' ', '\'', 'c', '\'', ']'] =
      ['[', '\'', 'a', '\'', ',', '\'', 'd', 'a', 'r', 'k', ':', 'b', '\'',
        ',', '\'', 'c', '\'', ']'] := by
  decide

/-- Claim C5: the whole-line elision pass drops exactly the lines whose
trimmed content starts with a single or double quote immediately followed
by `dark:` and keeps every other line; the example line
`  'dark:bg-gray-800',` is fully removed; and a line whose trimmed content
starts with any character other than such a quote is never elided. -/
theorem claim_C5_elision :
    (∀ s : List Char,
      elideNl s = joinNl ((splitNl s).filter (fun l => !trimmedQuoteDark l))) ∧
    elideNl
        ['x', '\n', ' ', ' ', '\'', 'd', 'a', 'r', 'k', ':', 'b', 'g', '-',
          'g', 'r', 'a', 'y', '-', '8', '0', '0', '\'', ',', '\n', 'y'] =
      ['x', '\n', 'y'] ∧
    (∀ (l : List Char) (c : Char) (r : List Char),
      pyStrip l = c :: r → c ≠ '\'' → c ≠ '"' → trimmedQuoteDark l = false) := by
  refine ⟨?_, by decide, ?_⟩
  · intro s
    unfold elideNl
    have hfun : (fun l : List Char => !lineElides l) =
        (fun l : List Char => !trimmedQuoteDark l) :=
      funext fun l => by rw [lineElides_eq_trimmed]
    rw [hfun]
  · intro l c r hp hq1 hq2
    unfold trimmedQuoteDark
    rw [hp]
    have e1 : (c == '\'') = false := beq_eq_false_iff_ne.mpr hq1
    have e2 : (c == '"') = false := beq_eq_false_iff_ne.mpr hq2
    simp [e1, e2]

/-- Witness for claim C5 at the concrete line `ab`. -/
theorem claim_C5_elision_witness : trimmedQuoteDark ['a', 'b'] = false :=
  claim_C5_elision.2.2 ['a', 'b'] 'a' ['b'] (by decide) (by decide) (by decide)

/-- Claim C6: the inline pass removes, as one unit, any run made of one or
more whitespace characters, the prefix `dark:`, and zero or more
characters that are neither whitespace nor a quote (so a compound token
such as `dark:hover:text-red-500` is removed whole), and on the example
`className="text-white dark:text-black px-2"` the transformation returns
`className="text-white px-2"`. -/
theorem claim_C6_inline :
    (∀ w t r : List Char, w ≠ [] → (∀ c ∈ w, isWsC c = true) →
      (∀ c ∈ t, isTokC c = true) →
      (r = [] ∨ ∃ d rs, r = d :: rs ∧ isTokC d = false) →
      subDark (w ++ (darkW ++ (t ++ r))) = subDark r) ∧
    Classes.remove_dark_classes
        ['c', 'l', 'a', 's', 's', 'N', 'a', 'm', 'e', '=', '"', 't', 'e',
          'x', 't', '-', 'w', 'h', 'i', 't', 'e', ' ', 'd', 'a', 'r', 'k',
          ':', 't', 'e', 'x', 't', '-', 'b', 'l', 'a', 'c', 'k', ' ', 'p',
          'x', '-', '2', '"'] =
      ['c', 'l', 'a', 's', 's', 'N', 'a', 'm', 'e', '=', '"', 't', 'e',
        'x', 't', '-', 'w', 'h', 'i', 't', 'e', ' ', 'p', 'x', '-', '2',
        '"'] ∧
    Classes.remove_dark_classes
        ['a', ' ', 'd', 'a', 'r', 'k', ':', 'h', 'o', 'v', 'e', 'r', ':',
          't', 'e', 'x', 't', '-', 'r', 'e', 'd', '-', '5', '0', '0', ' ',
          'b'] =
      ['a', ' ', 'b'] := by
  refine ⟨?_, by decide, by decide⟩
  intro w t r hw hws ht hr
  cases w with
  | nil => exact absurd rfl hw
  | cons c w' =>
    have hc : isWsC c = true := hws c (by simp)
    have hstep1 : (w' ++ (darkW ++ (t ++ r))).dropWhile isWsC =
        (darkW ++ (t ++ r)).dropWhile isWsC :=
      dropWhile_all_append isWsC w' _ (fun d hd => hws d (by simp [hd]))
    have hstep2 : (darkW ++ (t ++ r)).dropWhile isWsC = darkW ++ (t ++ r) := by
      rw [show darkW ++ (t ++ r) = 'd' :: (['a', 'r', 'k', ':'] ++ (t ++ r)) from rfl]
      rw [List.dropWhile_cons_of_neg (by decide)]
    have hmatch : afterDarkMatch ((c :: w') ++ (darkW ++ (t ++ r))) =
        some ((t ++ r).dropWhile isTokC) := by
      unfold afterDarkMatch
      rw [List.cons_append, List.dropWhile_cons_of_pos hc, hstep1, hstep2]
      rw [show darkW ++ (t ++ r) = 'd' :: 'a' :: 'r' :: 'k' :: ':' :: (t ++ r) from rfl]
      rfl
    have hdrop : (t ++ r).dropWhile isTokC = r := by
      rw [dropWhile_all_append isTokC t r ht]
      rcases hr with hr0 | ⟨d, rs, hdr, hdt⟩
      · rw [hr0]
        rfl
      · rw [hdr]
        exact List.dropWhile_cons_of_neg (by simp [hdt])
    have hmatch2 : afterDarkMatch (c :: (w' ++ (darkW ++ (t ++ r)))) = some r := by
      rw [← List.cons_append, hmatch, hdrop]
    rw [List.cons_append]
    exact subDark_ws_some c _ r hc hmatch2

/-- Witness for claim C6: a single space, then `dark:` with the compound
token `hover:text-red-500`, is removed as one unit. -/
theorem claim_C6_inline_witness :
    subDark
        ([' '] ++ (darkW ++ (['h', 'o', 'v', 'e', 'r', ':', 't', 'e', 'x',
          't', '-', 'r', 'e', 'd', '-', '5', '0', '0'] ++ []))) =
      subDark [] :=
  claim_C6_inline.1 [' ']
    ['h', 'o', 'v', 'e', 'r', ':', 't', 'e', 'x', 't', '-', 'r', 'e', 'd',
      '-', '5', '0', '0'] []
    (by decide) (by decide) (by decide) (Or.inl rfl)

/-- Claim C3 counterexample: with input ` dark: 'dark:b`, one application
of the transformation yields `'dark:b` (the cleanup moves the quote to the
start of the line), and a second application elides that line entirely,
yielding the empty string, so the transformation is not idempotent. -/
theorem claim_C3_counterexample :
    Classes.remove_dark_classes
        (Classes.remove_dark_classes
          [' ', 'd', 'a', 'r', 'k', ':', ' ', '\'', 'd', 'a', 'r', 'k', ':', 'b']) ≠
      Classes.remove_dark_classes
        [' ', 'd', 'a', 'r', 'k', ':', ' ', '\'', 'd', 'a', 'r', 'k', ':', 'b'] := by
  decide

/-- Claim C3 amended: the transformation of `remove-dark-classes.py` is
idempotent on every input that contains no quote characters; the
counterexample to full idempotence needs a quote that the cleanup passes
move to the start of a line, where the second run's line elision fires. -/
theorem claim_C3_amended (s : List Char)
    (hq : ∀ c ∈ s, c ≠ '\'' ∧ c ≠ '"') :
    Classes.remove_dark_classes (Classes.remove_dark_classes s) =
      Classes.remove_dark_classes s := by
  have hsub := removeClasses_sublist s
  have hqt : ∀ c ∈ Classes.remove_dark_classes s, c ≠ '\'' ∧ c ≠ '"' :=
    fun c hc => hq c (hsub.subset hc)
  have hwd : hasWsDark (Classes.remove_dark_classes s) = false := classes_noWsDark s
  set u0 := collapseSpaces (subDark (elideNl s)) with hu0
  set u1 := delSpaceBefore '\'' u0 with hu1
  set u2 := delSpaceBefore '"' u1 with hu2
  set u3 := delSpaceBefore ']' u2 with hu3
  have t0 : hasSub [' ', ' '] u0 = false := collapse_noTwoSp _
  have t1 : hasSub [' ', ' '] u1 = false := delSpace_noTwoSp '\'' u0 (by decide) t0
  have t2 : hasSub [' ', ' '] u2 = false := delSpace_noTwoSp '"' u1 (by decide) t1
  have t3 : hasSub [' ', ' '] u3 = false := delSpace_noTwoSp ']' u2 (by decide) t2
  have t4 : hasSub [' ', ' '] (delSpaceBefore ',' u3) = false :=
    delSpace_noTwoSp ',' u3 (by decide) t3
  have q1 : hasSub [' ', '\''] u1 = false := delSpace_noSpX '\'' u0 (by decide) t0
  have q2 : hasSub [' ', '\''] u2 = false :=
    delSpace_noSpX_pres '\'' '"' u1 (by decide) (by decide) (by decide) t1 q1
  have q3 : hasSub [' ', '\''] u3 = false :=
    delSpace_noSpX_pres '\'' ']' u2 (by decide) (by decide) (by decide) t2 q2
  have q4 : hasSub [' ', '\''] (delSpaceBefore ',' u3) = false :=
    delSpace_noSpX_pres '\'' ',' u3 (by decide) (by decide) (by decide) t3 q3
  have d2 : hasSub [' ', '"'] u2 = false := delSpace_noSpX '"' u1 (by decide) t1
  have d3 : hasSub [' ', '"'] u3 = false :=
    delSpace_noSpX_pres '"' ']' u2 (by decide) (by decide) (by decide) t2 d2
  have d4 : hasSub [' ', '"'] (delSpaceBefore ',' u3) = false :=
    delSpace_noSpX_pres '"' ',' u3 (by decide) (by decide) (by decide) t3 d3
  have b3 : hasSub [' ', ']'] u3 = false := delSpace_noSpX ']' u2 (by decide) t2
  have b4 : hasSub [' ', ']'] (delSpaceBefore ',' u3) = false :=
    delSpace_noSpX_pres ']' ',' u3 (by decide) (by decide) (by decide) t3 b3
  have c4 : hasSub [' ', ','] (delSpaceBefore ',' u3) = false :=
    delSpace_noSpX ',' u3 (by decide) t3
  have hel : elideNl (delSpaceBefore ',' u3) = delSpaceBefore ',' u3 := by
    apply elide_id
    intro l hl
    by_contra hne
    have hlt : lineElides l = true := by simpa using hne
    rcases lineElides_quote_mem l hlt with hm | hm
    · exact (hqt '\'' (splitNl_mem_subset _ l hl '\'' hm)).1 rfl
    · exact (hqt '"' (splitNl_mem_subset _ l hl '"' hm)).2 rfl
  have hsd : subDark (delSpaceBefore ',' u3) = delSpaceBefore ',' u3 :=
    subDark_id _ hwd
  show delSpaceBefore ','
      (delSpaceBefore ']'
        (delSpaceBefore '"'
          (delSpaceBefore '\''
            (collapseSpaces (subDark (elideNl (delSpaceBefore ',' u3))))))) =
    delSpaceBefore ',' u3
  rw [hel, hsd, collapse_id _ t4, delSpace_id '\'' _ q4, delSpace_id '"' _ d4,
    delSpace_id ']' _ b4, delSpace_id ',' _ c4]

/-- Witness for the amended claim C3 at the quote-free input `a  b ,c`. -/
theorem claim_C3_amended_witness :
    Classes.remove_dark_classes
        (Classes.remove_dark_classes ['a', ' ', ' ', 'b', ' ', ',', 'c']) =
      Classes.remove_dark_classes ['a', ' ', ' ', 'b', ' ', ',', 'c'] :=
  claim_C3_amended ['a', ' ', ' ', 'b', ' ', ',', 'c'] (by decide)
